import Mathlib

/-!
Verification of the rendezvous-queue library `pipe.js`.

The source is a single constructor `Pipe(concurrency, ...tasks)` with methods
`fill`, `fetch`, `flush`, `reset`, `count` and the internal helpers `_start`
and `_run`.  Its mutable instance state is

  * `_c` : the concurrency limit (`concurrency || 1`),
  * `_t` : the queue of pending tasks,
  * `_w` : the queue of callbacks awaiting tasks,
  * `_r` : the number of running tasks.

We embed the state as a structure `Pipe α β` over opaque task values `α` and
waiter values `β` (the scheduling layer never inspects a task or waiter, it
only moves them between queues), with `_r` as an `Int` because the code can
drive it below zero (`reset(force)` misuse, repeated `done` calls).

Besides the four source fields, the structure carries four history fields
(`fills`, `fetches`, `matched`, `done`).  They are ghost state: no operation
of the source reads them, they only record, for the specification, every task
ever enqueued, every waiter ever enqueued, the pairs in match order, and the
number of consumer-done invocations.
-/

namespace PipeJs

variable {α β γ δ κ φ : Type}

/-- State of one `Pipe` instance.  Fields `c`, `t`, `w`, `r` are the source's
`_c`, `_t`, `_w`, `_r`; `fills`, `fetches`, `matched`, `done` are ghost
history fields used only by the specification. -/
structure Pipe (α β : Type) where
  c : Nat
  t : List α
  w : List β
  r : Int
  fills : List α
  fetches : List β
  matched : List (α × β)
  done : Nat
deriving Repr

namespace Pipe

/-- Constructor `Pipe(concurrency, ...tasks)`: `this._c = concurrency || 1`
(a falsy argument — absent, `null`, `false`, or `0` — yields 1, modelled by
`none` or `some 0`), `this._t = slice.call(arguments, 1)` (the initial
tasks), `this._w = []`, `this._r = 0`.  The ghost `fills` records the
preloaded tasks as already enqueued. -/
def init (concurrency : Option Nat) (tasks : List α) : Pipe α β :=
  { c := match concurrency with
         | some n => if n = 0 then 1 else n
         | none => 1
    t := tasks
    w := []
    r := 0
    fills := tasks
    fetches := []
    matched := []
    done := 0 }

/-- Scheduler effect of `_run(task, done)`: `++this._r`, then the task
function is invoked (the invocation itself is modelled by `runCall` below;
re-entrant calls the task function makes appear as later operations of a
trace).  The ghost `matched` records the pair. -/
def run (a : α) (b : β) (p : Pipe α β) : Pipe α β :=
  { p with r := p.r + 1, matched := p.matched ++ [(a, b)] }

/-- `_start()`: if the task queue and the waiter queue are both non-empty and
`this._r < this._c`, shift the head of each and `_run` them; otherwise do
nothing. -/
def start (p : Pipe α β) : Pipe α β :=
  match p.t, p.w with
  | a :: ts, b :: ws =>
    if p.r < (p.c : Int) then run a b { p with t := ts, w := ws } else p
  | _, _ => p

/-- `fill(task)`: push the task onto `_t`, then `_start()`.  (The source also
normalizes a `(fn, cxt, ...args)` calling convention into one task object;
tasks are opaque here, so a task value arrives already built.)  The ghost
`fills` records the enqueue. -/
def fill (p : Pipe α β) (a : α) : Pipe α β :=
  start { p with t := p.t ++ [a], fills := p.fills ++ [a] }

/-- `fetch(cb, cxt)`: push the waiter onto `_w`, then `_start()`.  The ghost
`fetches` records the enqueue. -/
def fetch (p : Pipe α β) (b : β) : Pipe α β :=
  start { p with w := p.w ++ [b], fetches := p.fetches ++ [b] }

/-- Iterated `fetch` with one fixed waiter: the body of `flush`'s loop run
`n` times. -/
def fetchIter (b : β) : Nat → Pipe α β → Pipe α β
  | 0, p => p
  | n + 1, p => fetchIter b n (p.fetch b)

/-- `flush(cb, cxt)`: `var pending = this._t.length - this._w.length;
while (pending--) { this.fetch(cb, cxt); }`.  The loop guard is the value of
`pending` before the decrement, so the loop stops exactly when `pending`
reaches `0`: for a non-negative initial difference it calls `fetch` that many
times, but for a negative initial difference (more queued waiters than tasks)
the counter is never `0` again and the loop diverges — modelled as `none`. -/
def flush (p : Pipe α β) (b : β) : Option (Pipe α β) :=
  let pending : Int := (p.t.length : Int) - (p.w.length : Int)
  if 0 ≤ pending then some (fetchIter b pending.toNat p) else none

/-- `reset(force)`: `this._t.length = this._w.length = 0`, and
`if (force) { this._r = 0; }`. -/
def reset (p : Pipe α β) (force : Bool) : Pipe α β :=
  { p with t := [], w := [], r := if force then 0 else p.r }

/-- `count(alt, excludeRunning)`:
`(alt ? this._w.length : this._t.length) + (excludeRunning ? 0 : this._r)`. -/
def count (p : Pipe α β) (alt excludeRunning : Bool) : Int :=
  (if alt then (p.w.length : Int) else (p.t.length : Int)) +
    (if excludeRunning then 0 else p.r)

/-- The continuation appended to the waiter-callback arguments in `_run`
(the consumer-done signal): `function() { --this._r; this._start(); }`.
Nothing in it marks its pair as finished, so each invocation decrements and
re-matches again.  The ghost `done` counts the invocations. -/
def consume (p : Pipe α β) : Pipe α β :=
  start { p with r := p.r - 1, done := p.done + 1 }

end Pipe

/-!
Invocation protocol (`_run`, lines 143–167).  The calls the queue makes into
user code are modelled as explicit call records: `_run` invokes
`task.fn.apply(task.cxt || this, task.args.concat([producerDone]))`, and the
`producerDone` closure invokes
`done.cb.apply(done.cxt || this, resultArgs.concat([consumerDone]))`.
-/

/-- Receiver of an `apply` call: the stored context of a task/waiter, or —
when none was stored (`cxt || this`) — the queue instance itself. -/
inductive Receiver (κ : Type) where
  | self : Receiver κ
  | ctx : κ → Receiver κ
deriving Repr, DecidableEq

/-- Evaluation of `x || this` for a stored optional context `x`. -/
def resolveCxt : Option κ → Receiver κ
  | some k => .ctx k
  | none => .self

/-- One argument of a call the queue makes: either a plain value or the one
continuation closure the queue appends (`producerDone` resp. `consumerDone`). -/
inductive CallArg (δ : Type) where
  | val : δ → CallArg δ
  | cont : CallArg δ
deriving Repr, DecidableEq

/-- Record of one call into user code: callee, receiver, argument list. -/
structure Call (χ κ δ : Type) where
  callee : χ
  context : Receiver κ
  args : List (CallArg δ)
deriving Repr

/-- A task object `{fn, cxt, args}` as stored in `_t` (here with its payload
visible, for the invocation-protocol claims). -/
structure TaskRec (φ κ δ : Type) where
  fn : φ
  cxt : Option κ
  args : List δ
deriving Repr

/-- A waiter object `{cb, cxt}` as stored in `_w`. -/
structure WaiterRec (γ κ : Type) where
  cb : γ
  cxt : Option κ
deriving Repr

/-- The call `_run` makes to start a task:
`task.fn.apply(task.cxt || this, task.args.concat([producerDone]))` —
the stored arguments with the producer-done continuation appended, on the
stored context or the queue instance. -/
def runCall (tk : TaskRec φ κ δ) : Call φ κ δ :=
  { callee := tk.fn, context := resolveCxt tk.cxt
    args := tk.args.map .val ++ [.cont] }

/-- The `producerDone` closure (lines 150–162): called with the producer's
`resultArgs` it invokes `done.cb.apply(done.cxt || this,
resultArgs.concat([consumerDone]))`.  It touches none of `_c`, `_t`, `_w`,
`_r` — the pipe state passes through unchanged; in particular no concurrency
slot is freed.  Only the appended `consumerDone` continuation (modelled by
`Pipe.consume`) decrements `_r` and re-runs `_start`. -/
def producerDone (p : Pipe α β) (dn : WaiterRec γ κ) (resultArgs : List δ) :
    Pipe α β × Call γ κ δ :=
  (p, { callee := dn.cb, context := resolveCxt dn.cxt
        args := resultArgs.map .val ++ [.cont] })

/-!
Traces.  A trace is a list of operations applied to one instance.  Task
functions are arbitrary user code, so anything they do to the queue
(re-entrant `fill`/`fetch`/…) appears as later operations of the trace; a
`consume` operation is some in-flight pair's consumer invoking its
`consumerDone` continuation.  `flush` can diverge (see `Pipe.flush`), hence
execution produces an `Option` state.
-/

/-- One operation on a pipe instance. -/
inductive Op (α β : Type) where
  | fill : α → Op α β
  | fetch : β → Op α β
  | flush : β → Op α β
  | reset : Bool → Op α β
  | count : Op α β
  | consume : Op α β
deriving Repr

/-- Effect of one operation on the state.  `count` is a pure query (it
computes `Pipe.count`'s number and mutates nothing). -/
def exec (op : Op α β) (p : Pipe α β) : Option (Pipe α β) :=
  match op with
  | .fill a => some (p.fill a)
  | .fetch b => some (p.fetch b)
  | .flush b => p.flush b
  | .reset f => some (p.reset f)
  | .count => some p
  | .consume => some p.consume

/-- Execution of a trace, left to right. -/
def execList : List (Op α β) → Pipe α β → Option (Pipe α β)
  | [], p => some p
  | op :: ops, p =>
    match exec op p with
    | some q => execList ops q
    | none => none

/-- Operations a plain producer/consumer interleaving consists of:
`fill`, `fetch`, and consumer-done signals. -/
def isFFC : Op α β → Bool
  | .fill _ => true
  | .fetch _ => true
  | .consume => true
  | _ => false

/-- Protocol discipline at one state: a `consume` needs an in-flight pair
whose consumer has not yet signalled (each `consumerDone` fires at most once
per pair), and a forced reset is only taken with no pair in flight. -/
def okOp (p : Pipe α β) : Op α β → Bool
  | .consume => decide (p.done < p.matched.length)
  | .reset true => decide (p.done = p.matched.length)
  | _ => true

/-- A trace is valid from `p` when every operation obeys `okOp` at the state
it runs in. -/
def validRun (p : Pipe α β) : List (Op α β) → Bool
  | [] => true
  | op :: ops =>
    okOp p op &&
      match exec op p with
      | some q => validRun q ops
      | none => true

/-!  Case analysis of the matching step. -/

/-- `_start` either fires — both queues non-empty and `_r < _c`, in which
case it shifts both heads, increments `_r`, and records the match — or it
leaves the state alone because one of the three conditions fails. -/
lemma start_eq (p : Pipe α β) :
    (∃ a ts b ws, p.t = a :: ts ∧ p.w = b :: ws ∧ p.r < (p.c : Int) ∧
      p.start = { p with
        t := ts
        w := ws
        r := p.r + 1
        matched := p.matched ++ [(a, b)] }) ∨
    (p.start = p ∧ (p.t = [] ∨ p.w = [] ∨ ¬ p.r < (p.c : Int))) := by
  rcases ht : p.t with _ | ⟨a, ts⟩
  · exact Or.inr ⟨by simp [Pipe.start, ht], Or.inl rfl⟩
  · rcases hw : p.w with _ | ⟨b, ws⟩
    · exact Or.inr ⟨by simp [Pipe.start, ht, hw], Or.inr (Or.inl rfl)⟩
    · by_cases hr : p.r < (p.c : Int)
      · exact Or.inl ⟨a, ts, b, ws, rfl, rfl, hr,
          by simp [Pipe.start, Pipe.run, ht, hw, hr]⟩
      · exact Or.inr ⟨by simp [Pipe.start, ht, hw, hr], Or.inr (Or.inr hr)⟩

/-- With no waiter queued, a consumer-done signal cannot form a new pair:
it only decrements the running count (and bumps the ghost counter). -/
lemma consume_of_w_nil (p : Pipe α β) (hw : p.w = []) :
    p.consume = { p with r := p.r - 1, done := p.done + 1 } := by
  rcases start_eq ({ p with r := p.r - 1, done := p.done + 1 } : Pipe α β) with
    ⟨a, ts, b, ws, _, h2, _, _⟩ | ⟨he, _⟩
  · simp only [hw] at h2
    cases h2
  · simpa [Pipe.consume] using he

lemma execList_cons_some {op : Op α β} {ops : List (Op α β)} {p q₁ : Pipe α β}
    (h : exec op p = some q₁) :
    execList (op :: ops) p = execList ops q₁ := by
  simp [execList, h]

lemma execList_cons_none {op : Op α β} {ops : List (Op α β)} {p : Pipe α β}
    (h : exec op p = none) :
    execList (op :: ops) p = none := by
  simp [execList, h]

/-- An invariant preserved by every operation (of a class `P`) is preserved
by every defined trace of such operations. -/
lemma execList_preserve (I : Pipe α β → Prop) (P : Op α β → Bool)
    (hstep : ∀ op p q, P op = true → I p → exec op p = some q → I q) :
    ∀ (ops : List (Op α β)) (p q : Pipe α β), (∀ op ∈ ops, P op = true) →
      I p → execList ops p = some q → I q := by
  intro ops
  induction ops with
  | nil =>
    intro p q _ hI hq
    cases hq
    exact hI
  | cons op ops ih =>
    intro p q hP hI hq
    rcases hexec : exec op p with _ | q₁
    · rw [execList_cons_none hexec] at hq; cases hq
    · rw [execList_cons_some hexec] at hq
      exact ih q₁ q (fun o ho => hP o (List.mem_cons_of_mem _ ho))
        (hstep op p q₁ (hP op (List.mem_cons_self _ _)) hI hexec) hq

/-!  C4: the no-wasted-match invariant. -/

/-- The queue never holds a matchable task and a matchable waiter while a
concurrency slot is free. -/
def Inv4 (p : Pipe α β) : Prop :=
  p.t = [] ∨ p.w = [] ∨ ¬ p.r < (p.c : Int)

lemma inv4_fill (p : Pipe α β) (a : α) (h : Inv4 p) : Inv4 (p.fill a) := by
  show Inv4 (Pipe.start { p with t := p.t ++ [a], fills := p.fills ++ [a] })
  rcases start_eq ({ p with t := p.t ++ [a], fills := p.fills ++ [a] } : Pipe α β)
    with ⟨x, ts, b, ws, ht, hw, hr, he⟩ | ⟨he, hd⟩
  · rw [he]
    have ht' : p.t ++ [a] = x :: ts := ht
    have hw' : p.w = b :: ws := hw
    have hr' : p.r < (p.c : Int) := hr
    have hts : ts = [] := by
      rcases h with h | h | h
      · rw [h] at ht'
        simp only [List.nil_append] at ht'
        injection ht' with _ h2
        exact h2.symm
      · rw [h] at hw'
        simp at hw'
      · exact absurd hr' h
    exact Or.inl hts
  · rw [he]; exact hd

lemma inv4_fetch (p : Pipe α β) (b : β) (h : Inv4 p) : Inv4 (p.fetch b) := by
  show Inv4 (Pipe.start { p with w := p.w ++ [b], fetches := p.fetches ++ [b] })
  rcases start_eq ({ p with w := p.w ++ [b], fetches := p.fetches ++ [b] } : Pipe α β)
    with ⟨x, ts, y, ws, ht, hw, hr, he⟩ | ⟨he, hd⟩
  · rw [he]
    have ht' : p.t = x :: ts := ht
    have hw' : p.w ++ [b] = y :: ws := hw
    have hr' : p.r < (p.c : Int) := hr
    have hws : ws = [] := by
      rcases h with h | h | h
      · rw [h] at ht'
        simp at ht'
      · rw [h] at hw'
        simp only [List.nil_append] at hw'
        injection hw' with _ h2
        exact h2.symm
      · exact absurd hr' h
    exact Or.inr (Or.inl hws)
  · rw [he]; exact hd

lemma inv4_consume (p : Pipe α β) (h : Inv4 p) : Inv4 p.consume := by
  show Inv4 (Pipe.start { p with r := p.r - 1, done := p.done + 1 })
  rcases start_eq ({ p with r := p.r - 1, done := p.done + 1 } : Pipe α β)
    with ⟨x, ts, y, ws, ht, hw, hr, he⟩ | ⟨he, hd⟩
  · rw [he]
    have ht' : p.t = x :: ts := ht
    have hw' : p.w = y :: ws := hw
    rcases h with h | h | h
    · rw [h] at ht'; simp at ht'
    · rw [h] at hw'; simp at hw'
    · refine Or.inr (Or.inr ?_)
      show ¬ p.r - 1 + 1 < (p.c : Int)
      intro hlt
      exact h (by omega)
  · rw [he]; exact hd

lemma inv4_reset (p : Pipe α β) (f : Bool) : Inv4 (p.reset f) :=
  Or.inl rfl

lemma inv4_fetchIter (b : β) :
    ∀ (n : Nat) (p : Pipe α β), Inv4 p → Inv4 (Pipe.fetchIter b n p) := by
  intro n
  induction n with
  | zero => intro p h; exact h
  | succ n ih =>
    intro p h
    show Inv4 (Pipe.fetchIter b n (p.fetch b))
    exact ih _ (inv4_fetch p b h)

lemma inv4_exec (op : Op α β) (p q : Pipe α β) (h : Inv4 p)
    (hq : exec op p = some q) : Inv4 q := by
  cases op with
  | fill a => cases hq; exact inv4_fill p a h
  | fetch b => cases hq; exact inv4_fetch p b h
  | flush b =>
    rw [exec, Pipe.flush] at hq
    split at hq
    · cases hq; exact inv4_fetchIter b _ p h
    · cases hq
  | reset f => cases hq; exact inv4_reset p f
  | count => cases hq; exact h
  | consume => cases hq; exact inv4_consume p h

/-- C4: after every public operation and every completed continuation step
of any trace, the queue never simultaneously holds a pending task and a
pending waiter while `running < concurrency`: the matching step, though it
dequeues at most one pair per invocation, is re-run after each single state
change, and this keeps matching eager and exhaustive. -/
theorem eager_matching (co : Option Nat) (ts : List α) (ops : List (Op α β))
    (q : Pipe α β) (hq : execList ops (Pipe.init co ts) = some q) :
    ¬(q.t ≠ [] ∧ q.w ≠ [] ∧ q.r < (q.c : Int)) := by
  have h4 : Inv4 q :=
    execList_preserve Inv4 (fun _ => true)
      (fun op p q' _ => inv4_exec op p q') ops _ q (fun _ _ => rfl)
      (Or.inr (Or.inl rfl)) hq
  rcases h4 with h | h | h
  · rintro ⟨ht, _, _⟩; exact ht h
  · rintro ⟨_, hw, _⟩; exact hw h
  · rintro ⟨_, _, hr⟩; exact h hr

/-- Witness for C4 at a concrete trace: one `fill` on a fresh queue leaves a
task and no waiter, so the invariant conjunction is false. -/
theorem eager_matching_witness :
    ¬((⟨1, [5], [], 0, [5], [], [], 0⟩ : Pipe Nat Nat).t ≠ [] ∧
      (⟨1, [5], [], 0, [5], [], [], 0⟩ : Pipe Nat Nat).w ≠ [] ∧
      (⟨1, [5], [], 0, [5], [], [], 0⟩ : Pipe Nat Nat).r
        < ((⟨1, [5], [], 0, [5], [], [], 0⟩ : Pipe Nat Nat).c : Int)) :=
  eager_matching none [] [Op.fill 5] _ rfl

/-!  C1: FIFO pairing. -/

/-- History decomposition: the tasks ever filled are the matched tasks (in
match order) followed by the still-queued ones, and likewise for waiters. -/
def InvZ (p : Pipe α β) : Prop :=
  p.fills = p.matched.map Prod.fst ++ p.t ∧
  p.fetches = p.matched.map Prod.snd ++ p.w

lemma invZ_start (p : Pipe α β) (h : InvZ p) : InvZ p.start := by
  obtain ⟨h1, h2⟩ := h
  rcases start_eq p with ⟨a, ts, b, ws, ht, hw, _, he⟩ | ⟨he, _⟩
  · rw [he]
    constructor
    · show p.fills = (p.matched ++ [(a, b)]).map Prod.fst ++ ts
      rw [h1, ht]; simp
    · show p.fetches = (p.matched ++ [(a, b)]).map Prod.snd ++ ws
      rw [h2, hw]; simp
  · rw [he]; exact ⟨h1, h2⟩

lemma invZ_fill (p : Pipe α β) (a : α) (h : InvZ p) : InvZ (p.fill a) := by
  obtain ⟨h1, h2⟩ := h
  apply invZ_start
  exact ⟨by show p.fills ++ [a] = p.matched.map Prod.fst ++ (p.t ++ [a])
            rw [h1, List.append_assoc],
         h2⟩

lemma invZ_fetch (p : Pipe α β) (b : β) (h : InvZ p) : InvZ (p.fetch b) := by
  obtain ⟨h1, h2⟩ := h
  apply invZ_start
  exact ⟨h1,
         by show p.fetches ++ [b] = p.matched.map Prod.snd ++ (p.w ++ [b])
            rw [h2, List.append_assoc]⟩

lemma invZ_consume (p : Pipe α β) (h : InvZ p) : InvZ p.consume := by
  obtain ⟨h1, h2⟩ := h
  exact invZ_start _ ⟨h1, h2⟩

lemma invZ_exec (op : Op α β) (p q : Pipe α β) (hop : isFFC op = true)
    (h : InvZ p) (hq : exec op p = some q) : InvZ q := by
  cases op with
  | fill a => cases hq; exact invZ_fill p a h
  | fetch b => cases hq; exact invZ_fetch p b h
  | consume => cases hq; exact invZ_consume p h
  | flush b => simp [isFFC] at hop
  | reset f => simp [isFFC] at hop
  | count => simp [isFFC] at hop

lemma zip_fst_snd (m : List (α × β)) :
    (m.map Prod.fst).zip (m.map Prod.snd) = m := by
  induction m with
  | nil => rfl
  | cons x xs ih => cases x; simp [ih]

/-- The history decomposition says exactly that the matched pairs are an
initial segment of the position-wise zip of fills with fetches. -/
lemma invZ_matched_zip (p : Pipe α β) (h : InvZ p) :
    p.matched = (p.fills.zip p.fetches).take p.matched.length := by
  obtain ⟨h1, h2⟩ := h
  rw [h1, h2, List.zip_append (by simp), zip_fst_snd]
  exact (List.take_left' (by simp)).symm

/-- C1: along any trace of `fill`s, `fetch`es and consumer-done signals on a
fresh queue, tasks are matched to waiters in strict arrival order on both
sides — the pairs formed are exactly an initial segment of the zip of the
fill sequence with the fetch sequence, so the i-th filled task is always
paired with (and its result delivered to) the i-th fetched waiter, for any
concurrency limit and regardless of how fast individual pairs complete. -/
theorem fifo_pairing (co : Option Nat) (ts : List α) (ops : List (Op α β))
    (q : Pipe α β) (hops : ∀ op ∈ ops, isFFC op = true)
    (hq : execList ops (Pipe.init co ts) = some q) :
    q.matched = (q.fills.zip q.fetches).take q.matched.length :=
  invZ_matched_zip q
    (execList_preserve InvZ isFFC invZ_exec ops _ q hops ⟨rfl, rfl⟩ hq)

/-- Witness for C1: two fills, two fetches and a consumer-done on a
concurrency-1 queue pair task 10 with waiter 100 and task 20 with
waiter 200, in order. -/
theorem fifo_pairing_witness :
    (⟨1, [], [], 1, [10, 20], [100, 200], [(10, 100), (20, 200)], 1⟩
        : Pipe Nat Nat).matched
      = (((⟨1, [], [], 1, [10, 20], [100, 200], [(10, 100), (20, 200)], 1⟩
            : Pipe Nat Nat).fills.zip
          (⟨1, [], [], 1, [10, 20], [100, 200], [(10, 100), (20, 200)], 1⟩
            : Pipe Nat Nat).fetches).take
          (⟨1, [], [], 1, [10, 20], [100, 200], [(10, 100), (20, 200)], 1⟩
            : Pipe Nat Nat).matched.length) :=
  fifo_pairing (some 1) []
    [Op.fill 10, Op.fill 20, Op.fetch 100, Op.fetch 200, Op.consume] _
    (by decide) rfl

/-!  C3: the running-count bound. -/

/-- The running count equals the number of matched pairs whose consumer has
not yet signalled completion, and stays within the concurrency limit. -/
def InvR (p : Pipe α β) : Prop :=
  p.r = (p.matched.length : Int) - (p.done : Int) ∧
  p.done ≤ p.matched.length ∧
  p.r ≤ (p.c : Int)

lemma invR_start (p : Pipe α β) (h : InvR p) : InvR p.start := by
  obtain ⟨h1, h2, h3⟩ := h
  rcases start_eq p with ⟨a, ts, b, ws, _, _, hr, he⟩ | ⟨he, _⟩
  · rw [he]
    refine ⟨?_, ?_, ?_⟩
    · show p.r + 1 = ((p.matched ++ [(a, b)]).length : Int) - (p.done : Int)
      simp only [List.length_append, List.length_singleton]
      push_cast
      omega
    · show p.done ≤ (p.matched ++ [(a, b)]).length
      simp only [List.length_append, List.length_singleton]
      omega
    · show p.r + 1 ≤ (p.c : Int)
      omega
  · rw [he]; exact ⟨h1, h2, h3⟩

lemma invR_fill (p : Pipe α β) (a : α) (h : InvR p) : InvR (p.fill a) := by
  obtain ⟨h1, h2, h3⟩ := h
  exact invR_start _ ⟨h1, h2, h3⟩

lemma invR_fetch (p : Pipe α β) (b : β) (h : InvR p) : InvR (p.fetch b) := by
  obtain ⟨h1, h2, h3⟩ := h
  exact invR_start _ ⟨h1, h2, h3⟩

lemma invR_fetchIter (b : β) :
    ∀ (n : Nat) (p : Pipe α β), InvR p → InvR (Pipe.fetchIter b n p) := by
  intro n
  induction n with
  | zero => intro p h; exact h
  | succ n ih =>
    intro p h
    show InvR (Pipe.fetchIter b n (p.fetch b))
    exact ih _ (invR_fetch p b h)

lemma invR_consume (p : Pipe α β) (hok : p.done < p.matched.length)
    (h : InvR p) : InvR p.consume := by
  obtain ⟨h1, h2, h3⟩ := h
  apply invR_start
  refine ⟨?_, ?_, ?_⟩
  · show p.r - 1 = (p.matched.length : Int) - ((p.done + 1 : Nat) : Int)
    push_cast
    omega
  · show p.done + 1 ≤ p.matched.length
    omega
  · show p.r - 1 ≤ (p.c : Int)
    omega

lemma invR_reset (p : Pipe α β) (f : Bool)
    (hok : f = true → p.done = p.matched.length) (h : InvR p) :
    InvR (p.reset f) := by
  obtain ⟨h1, h2, h3⟩ := h
  cases f with
  | false => exact ⟨h1, h2, h3⟩
  | true =>
    have hd := hok rfl
    refine ⟨?_, h2, ?_⟩
    · show (0 : Int) = (p.matched.length : Int) - (p.done : Int)
      omega
    · show (0 : Int) ≤ (p.c : Int)
      omega

lemma invR_exec (op : Op α β) (p q : Pipe α β) (hok : okOp p op = true)
    (h : InvR p) (hq : exec op p = some q) : InvR q := by
  cases op with
  | fill a => cases hq; exact invR_fill p a h
  | fetch b => cases hq; exact invR_fetch p b h
  | flush b =>
    rw [exec, Pipe.flush] at hq
    split at hq
    · cases hq; exact invR_fetchIter b _ p h
    · cases hq
  | reset f =>
    cases hq
    refine invR_reset p f ?_ h
    intro hf
    subst hf
    simpa [okOp] using hok
  | count => cases hq; exact h
  | consume =>
    cases hq
    exact invR_consume p (by simpa [okOp] using hok) h

lemma invR_execList :
    ∀ (ops : List (Op α β)) (p q : Pipe α β), InvR p →
      validRun p ops = true → execList ops p = some q → InvR q := by
  intro ops
  induction ops with
  | nil => intro p q h _ hq; cases hq; exact h
  | cons op ops ih =>
    intro p q h hv hq
    rcases hexec : exec op p with _ | q₁
    · rw [execList_cons_none hexec] at hq; cases hq
    · rw [execList_cons_some hexec] at hq
      rw [validRun] at hv
      simp only [hexec, Bool.and_eq_true] at hv
      exact ih q₁ q (invR_exec op p q₁ hv.1 h hexec) hv.2 hq

/-- C3: in every state reached by a trace of the five public operations and
the continuation protocol — each pair's `consumerDone` invoked at most once
and no forced reset while pairs are in flight (the `validRun` discipline) —
the running count satisfies `0 ≤ running ≤ concurrency`: at most
`concurrency` matched pairs are between producer invocation and consumer
done at any instant. -/
theorem running_bounds (co : Option Nat) (ts : List α) (ops : List (Op α β))
    (q : Pipe α β) (hv : validRun (Pipe.init co ts) ops = true)
    (hq : execList ops (Pipe.init co ts) = some q) :
    0 ≤ q.r ∧ q.r ≤ (q.c : Int) := by
  have hinit : InvR (Pipe.init co ts : Pipe α β) :=
    ⟨by simp [Pipe.init], by simp [Pipe.init], by show (0 : Int) ≤ _; omega⟩
  obtain ⟨h1, h2, h3⟩ := invR_execList ops _ q hinit hv hq
  exact ⟨by omega, h3⟩

/-- Witness for C3 at a concrete trace: fill, fetch (pair formed, running
hits the concurrency limit 1), then the consumer signals done. -/
theorem running_bounds_witness :
    0 ≤ (⟨1, [], [], 0, [1], [2], [(1, 2)], 1⟩ : Pipe Nat Nat).r ∧
    (⟨1, [], [], 0, [1], [2], [(1, 2)], 1⟩ : Pipe Nat Nat).r
      ≤ ((⟨1, [], [], 0, [1], [2], [(1, 2)], 1⟩ : Pipe Nat Nat).c : Int) :=
  running_bounds (some 1) [] [Op.fill 1, Op.fetch 2, Op.consume] _
    (by decide) rfl

/-!  C6: what `flush` matches immediately. -/

/-- With no task queued, or no free concurrency slot, iterated `fetch` only
accumulates waiters. -/
lemma fetchIter_stuck (b : β) :
    ∀ (n : Nat) (p : Pipe α β), p.t = [] ∨ (p.c : Int) ≤ p.r →
      Pipe.fetchIter b n p = { p with
        w := p.w ++ List.replicate n b
        fetches := p.fetches ++ List.replicate n b } := by
  intro n
  induction n with
  | zero => intro p _; simp [Pipe.fetchIter]
  | succ n ih =>
    intro p hp
    show Pipe.fetchIter b n (p.fetch b) = _
    have hfetch : p.fetch b
        = { p with w := p.w ++ [b], fetches := p.fetches ++ [b] } := by
      rcases start_eq ({ p with w := p.w ++ [b], fetches := p.fetches ++ [b] }
          : Pipe α β) with ⟨a, ts, b', ws, ht, _, hr, _⟩ | ⟨he, _⟩
      · exfalso
        have ht' : p.t = a :: ts := ht
        have hr' : p.r < (p.c : Int) := hr
        rcases hp with hp | hp
        · rw [hp] at ht'; cases ht'
        · omega
      · simpa [Pipe.fetch] using he
    rw [hfetch,
      ih ({ p with w := p.w ++ [b], fetches := p.fetches ++ [b] } : Pipe α β)
        hp]
    simp [List.replicate_succ]

/-- Draining lemma: starting with an empty waiter queue and running count
within bounds, `n` iterated `fetch`es match exactly
`min n (min taskQueueLength freeSlots)` pairs and queue the remaining
waiters. -/
lemma fetchIter_drain (b : β) :
    ∀ (n : Nat) (p : Pipe α β), p.w = [] → 0 ≤ p.r → p.r ≤ (p.c : Int) →
      (Pipe.fetchIter b n p).r
          = p.r + (min n (min p.t.length (p.c - p.r.toNat)) : Nat) ∧
      (Pipe.fetchIter b n p).t.length
          = p.t.length - min n (min p.t.length (p.c - p.r.toNat)) ∧
      (Pipe.fetchIter b n p).w.length
          = n - min n (min p.t.length (p.c - p.r.toNat)) ∧
      (Pipe.fetchIter b n p).matched.length
          = p.matched.length + min n (min p.t.length (p.c - p.r.toNat)) := by
  intro n
  induction n with
  | zero =>
    intro p hw _ _
    refine ⟨?_, ?_, ?_, ?_⟩ <;> simp [Pipe.fetchIter, hw]
  | succ n ih =>
    intro p hw h0 hc
    have hiter : Pipe.fetchIter b (n + 1) p = Pipe.fetchIter b n (p.fetch b) :=
      rfl
    rcases start_eq ({ p with w := p.w ++ [b], fetches := p.fetches ++ [b] }
        : Pipe α β) with ⟨a, ts, b', ws, ht, hwq, hr, he⟩ | ⟨he, hd⟩
    · -- the enqueued waiter is matched at once
      have ht' : p.t = a :: ts := ht
      have hwq' : p.w ++ [b] = b' :: ws := hwq
      have hr' : p.r < (p.c : Int) := hr
      have hws : ws = [] := by
        rw [hw] at hwq'
        simp only [List.nil_append] at hwq'
        injection hwq' with _ h2
        exact h2.symm
      have hstep : p.fetch b
          = { p with
              t := ts
              w := ws
              r := p.r + 1
              fetches := p.fetches ++ [b]
              matched := p.matched ++ [(a, b')] } := he
      have hlen : p.t.length = ts.length + 1 := by rw [ht']; simp
      obtain ⟨ih1, ih2, ih3, ih4⟩ :=
        ih ({ p with
              t := ts
              w := ws
              r := p.r + 1
              fetches := p.fetches ++ [b]
              matched := p.matched ++ [(a, b')] } : Pipe α β)
          hws (by show (0 : Int) ≤ p.r + 1; omega)
          (by show p.r + 1 ≤ (p.c : Int); omega)
      rw [hiter, hstep]
      dsimp only at ih1 ih2 ih3 ih4 ⊢
      simp only [List.length_append, List.length_singleton] at ih4
      refine ⟨?_, ?_, ?_, ?_⟩
      · rw [ih1]; omega
      · rw [ih2]; omega
      · rw [ih3]; omega
      · rw [ih4]; omega
    · -- no task available or no free slot: the waiter just queues up
      have hstuck : p.t = [] ∨ (p.c : Int) ≤ p.r := by
        rcases hd with hd | hd | hd
        · exact Or.inl hd
        · exfalso
          have hd' : p.w ++ [b] = [] := hd
          simp at hd'
        · exact Or.inr (by
            have hd' : ¬ p.r < (p.c : Int) := hd
            omega)
      have hstep : p.fetch b
          = { p with w := p.w ++ [b], fetches := p.fetches ++ [b] } := he
      have hK : min (n + 1) (min p.t.length (p.c - p.r.toNat)) = 0 := by
        rcases hstuck with h | h
        · rw [h]; simp
        · omega
      rw [hiter, hstep,
        fetchIter_stuck b n
          ({ p with w := p.w ++ [b], fetches := p.fetches ++ [b] } : Pipe α β)
          hstuck]
      dsimp only
      refine ⟨?_, ?_, ?_, ?_⟩
      · omega
      · omega
      · rw [hw]
        simp only [List.nil_append, List.length_append, List.length_replicate,
          List.length_singleton]
        omega
      · omega

/-- C6: called with `pendingTasks` unmatched tasks queued (and no queued
waiter, no running pair), `flush` matches exactly
`min pendingTasks concurrency` tasks immediately — during the call itself —
and leaves the remainder of the backlog queued as waiters (the matching step
picks them up as slots free). -/
theorem flush_matches_min (p q : Pipe α β) (b : β) (hw : p.w = [])
    (hr : p.r = 0) (hq : p.flush b = some q) :
    q.matched.length = p.matched.length + min p.t.length p.c ∧
    q.t.length = p.t.length - min p.t.length p.c ∧
    q.w.length = p.t.length - min p.t.length p.c ∧
    q.r = ((min p.t.length p.c : Nat) : Int) := by
  have hlw : p.w.length = 0 := by rw [hw]; rfl
  rw [Pipe.flush] at hq
  split at hq
  · cases hq
    obtain ⟨d1, d2, d3, d4⟩ :=
      fetchIter_drain b (((p.t.length : Int) - (p.w.length : Int)).toNat) p
        hw (by omega) (by omega)
    refine ⟨?_, ?_, ?_, ?_⟩ <;> omega
  · cases hq

/-- Witness for C6: flushing three queued tasks on a concurrency-2 queue
matches `min 3 2 = 2` of them immediately and queues one leftover waiter. -/
theorem flush_matches_min_witness :
    (⟨2, [30], [7], 2, [10, 20, 30], [7, 7, 7], [(10, 7), (20, 7)], 0⟩
        : Pipe Nat Nat).matched.length = 0 + min 3 2 ∧
    (⟨2, [30], [7], 2, [10, 20, 30], [7, 7, 7], [(10, 7), (20, 7)], 0⟩
        : Pipe Nat Nat).t.length = 3 - min 3 2 ∧
    (⟨2, [30], [7], 2, [10, 20, 30], [7, 7, 7], [(10, 7), (20, 7)], 0⟩
        : Pipe Nat Nat).w.length = 3 - min 3 2 ∧
    (⟨2, [30], [7], 2, [10, 20, 30], [7, 7, 7], [(10, 7), (20, 7)], 0⟩
        : Pipe Nat Nat).r = ((min 3 2 : Nat) : Int) :=
  flush_matches_min (Pipe.init (some 2) [10, 20, 30]) _ 7 rfl rfl rfl

/-- C9: the constructor sets the concurrency limit to 1 whenever the
concurrency argument is falsy/zero/absent (`none` or `some 0`), preloads the
task queue with the initial tasks without matching any of them, and starts
with an empty waiter queue and a running count of 0. -/
theorem init_spec (co : Option Nat) (ts : List α) :
    (Pipe.init co ts : Pipe α β).c = (if co.getD 0 = 0 then 1 else co.getD 0) ∧
    (Pipe.init co ts : Pipe α β).t = ts ∧
    (Pipe.init co ts : Pipe α β).w = [] ∧
    (Pipe.init co ts : Pipe α β).r = 0 ∧
    (Pipe.init co ts : Pipe α β).matched = [] := by
  rcases co with _ | n <;> simp [Pipe.init]

/-- C7: `count` returns `taskQueueLength + running` by default,
`waiterQueueLength + running` with `alternate` true, and omits `running`
from either sum with `excludeRunning` true; as a trace operation it is a
pure query leaving the state unchanged. -/
theorem count_spec (p : Pipe α β) :
    p.count false false = (p.t.length : Int) + p.r ∧
    p.count true false = (p.w.length : Int) + p.r ∧
    p.count false true = (p.t.length : Int) ∧
    p.count true true = (p.w.length : Int) ∧
    exec Op.count p = some p :=
  ⟨rfl, rfl, by simp [Pipe.count], by simp [Pipe.count], rfl⟩

/-- C8: `reset(force)` empties both queues, leaves the concurrency limit and
the matched-pair history (in-flight work) untouched, keeps `running` as is
when `force` is false and zeroes it when `force` is true. -/
theorem reset_spec (p : Pipe α β) (force : Bool) :
    (p.reset force).t = [] ∧ (p.reset force).w = [] ∧
    (p.reset force).c = p.c ∧ (p.reset force).matched = p.matched ∧
    (p.reset force).done = p.done ∧
    (p.reset force).r = (if force then 0 else p.r) := by
  cases force <;> simp [Pipe.reset]

/-- C2: when a task invokes `producerDone(...resultArgs)` the queue frees no
concurrency slot — the state passes through unchanged — and it invokes the
matched waiter's callback with `resultArgs` plus an appended `consumerDone`
continuation, on the waiter's stored context or the queue instance if none;
only `consumerDone` (modelled by `Pipe.consume`) decrements `running` and
re-runs the matching step `_start`. -/
theorem producer_done_protocol (p : Pipe α β) (dn : WaiterRec γ κ)
    (resultArgs : List δ) :
    (producerDone p dn resultArgs).1 = p ∧
    (producerDone p dn resultArgs).1.r = p.r ∧
    (producerDone p dn resultArgs).2.callee = dn.cb ∧
    (producerDone p dn resultArgs).2.context = resolveCxt dn.cxt ∧
    (producerDone p dn resultArgs).2.args
      = resultArgs.map CallArg.val ++ [CallArg.cont] ∧
    (∀ q : Pipe α β,
      q.consume = Pipe.start { q with r := q.r - 1, done := q.done + 1 }) :=
  ⟨rfl, rfl, rfl, rfl, rfl, fun _ => rfl⟩

/-- C5 fails on the code: with one queued waiter and no queued task,
`flush`'s backlog `pending = _t.length - _w.length` is `-1`, and
`while (pending--)` never reaches the falsy value `0` from a negative start,
so the loop diverges instead of calling `fetch` zero times (modelled as
`none`). -/
theorem flush_diverges_on_excess_waiters :
    ((Pipe.init none ([] : List Nat) : Pipe Nat Nat).fetch 0).flush 0
      = none := by
  rfl

/-- C10: each invocation of a pair's `consumerDone` continuation
unconditionally decrements `running` and re-runs the matching step — no flag
marks the pair completed — so `k` invocations (here with no waiter queued,
so no new pair forms) decrement `running` by `k`, driving it below zero once
`k` exceeds the number of slots in use. -/
theorem consumer_done_unguarded (p : Pipe α β) (k : Nat) (hw : p.w = []) :
    (Pipe.consume^[k] p).r = p.r - (k : Int) ∧
    (Pipe.consume^[k] p).done = p.done + k ∧
    (Pipe.consume^[k] p).w = [] := by
  induction k generalizing p with
  | zero => simpa using hw
  | succ n ih =>
    have hc : p.consume = { p with r := p.r - 1, done := p.done + 1 } :=
      consume_of_w_nil p hw
    rw [Function.iterate_succ_apply, hc]
    obtain ⟨h1, h2, h3⟩ :=
      ih ({ p with r := p.r - 1, done := p.done + 1 } : Pipe α β) hw
    refine ⟨?_, ?_, h3⟩
    · rw [h1]; push_cast; ring
    · rw [h2]; show p.done + 1 + n = p.done + (n + 1); omega

/-- Witness for C10: two stray `consumerDone` invocations on a fresh queue
drive the running count to `-2`. -/
theorem consumer_done_unguarded_witness :
    (Pipe.consume^[2] (Pipe.init none ([] : List Nat) : Pipe Nat Nat)).r
      = -2 :=
  (consumer_done_unguarded _ 2 rfl).1

end PipeJs
